import Mathlib

/-
  Verification of the kakure binary-analysis core.

  Shallow embedding of:
  - the function merge engine of `kakure-core/src/binary.rs`
    (`BinaryAnalysis::get_function_map`, `BinaryAnalysis::add_functions`,
    `BinaryAnalysis::identify_entry_point`, `BinaryAnalysis::sort_functions`,
    `BinaryAnalysis::analyze_symtab`),
  - the symbol-table scanner of
    `kakure-core/src/function_signature/frame_analyzers/symtab.rs`
    (`Elf64Sym::from_section`, `parse_symtab_64`),
  - the program-header fallback region extractor of
    `kakure-core/src/sections.rs` (`KSection::from_goblin_ph`).

  Rust `String` values are UTF-8 byte vectors; identifiers are modelled as
  their byte sequences (`List Nat`), so that `starts_with` and `==` on Rust
  strings become `List.isPrefixOf` and list equality.  Machine integers
  (`u64`, `u32`, ...) are modelled as `Nat`; the two additions that can
  overflow a 64-bit integer in the modelled code — `st_value + st_size` in
  `parse_symtab_64` and the `p_offset as usize + p_filesz as usize` bound
  check in `KSection::from_goblin_ph` — are reduced modulo `2 ^ 64` at
  those points (release-mode wrap-around semantics).
-/

set_option autoImplicit false

namespace Kakure

/-- Byte sequence (UTF-8) of an ASCII string literal. -/
def asciiBytes (s : String) : List Nat := s.data.map Char.toNat

/-- Bytes of the literal `"FUNC_"` used by `get_function_map` to infer that a
candidate came from the unwind-table scanner. -/
def funcTag : List Nat := asciiBytes "FUNC_"

/-- Bytes of the literal `"entry"`. -/
def entryName : List Nat := asciiBytes "entry"

/-- `FunctionSignature` from `kakure-core/src/function_signature.rs`.
The Rust field `end` is a reserved word in Lean and is named `end_addr`
here. -/
structure FunctionSignature where
  function_identifier : List Nat
  start : Nat
  end_addr : Nat
  size : Nat
deriving DecidableEq

/-- `FunctionSource` from `kakure-core/src/binary.rs` (discriminants 0..4,
compared by the derived `Ord`, i.e. by discriminant). -/
inductive FunctionSource where
  | EhFrame
  | CallGraph
  | DynSym
  | SymTab
  | Manual
deriving DecidableEq

/-- Discriminant of a `FunctionSource`; the Rust derived order compares
these numbers. -/
def FunctionSource.prio : FunctionSource → Nat
  | .EhFrame => 0
  | .CallGraph => 1
  | .DynSym => 2
  | .SymTab => 3
  | .Manual => 4

/-- `FunctionEntry` from `kakure-core/src/binary.rs`. -/
structure FunctionEntry where
  signature : FunctionSignature
  source : FunctionSource
deriving DecidableEq

/-- The source inference performed inside
`BinaryAnalysis::get_function_map` (binary.rs lines 75-82): a candidate
whose identifier starts with `"FUNC_"` is treated as coming from
`.eh_frame`, one named `"entry"` as `Manual`, anything else as `.symtab`. -/
def inferSource (sig : FunctionSignature) : FunctionSource :=
  if funcTag.isPrefixOf sig.function_identifier then .EhFrame
  else if sig.function_identifier = entryName then .Manual
  else .SymTab

/-- Lookup in the association-list model of
`HashMap<u64, FunctionEntry>`. -/
def lookupEntry : List (Nat × FunctionEntry) → Nat → Option FunctionEntry
  | [], _ => none
  | (k, e) :: rest, a => if k = a then some e else lookupEntry rest a

/-- Insert-or-replace in the association-list model of
`HashMap<u64, FunctionEntry>`. -/
def insertEntry : List (Nat × FunctionEntry) → Nat → FunctionEntry → List (Nat × FunctionEntry)
  | [], a, e => [(a, e)]
  | (k, e0) :: rest, a, e =>
    if k = a then (k, e) :: rest else (k, e0) :: insertEntry rest a e

/-- One step of `BinaryAnalysis::get_function_map`: map a drained candidate
to `(start, FunctionEntry { signature, inferred source })`. -/
def gfmStep (m : List (Nat × FunctionEntry)) (sig : FunctionSignature) :
    List (Nat × FunctionEntry) :=
  insertEntry m sig.start ⟨sig, inferSource sig⟩

/-- `BinaryAnalysis::get_function_map` (binary.rs lines 70-94): drain the
current function list into a map keyed by start address, re-inferring each
candidate's source from its identifier.  Later duplicates of a start
address overwrite earlier ones, as in `Iterator::collect` into a
`HashMap`. -/
def get_function_map (fns : List FunctionSignature) : List (Nat × FunctionEntry) :=
  fns.foldl gfmStep []

/-- One step of the merge loop in `BinaryAnalysis::add_functions`
(binary.rs lines 99-121): `entry(start).and_modify(...).or_insert(...)`. -/
def mergeOne (m : List (Nat × FunctionEntry)) (sig : FunctionSignature)
    (src : FunctionSource) : List (Nat × FunctionEntry) :=
  match lookupEntry m sig.start with
  | some e => if e.source.prio < src.prio then insertEntry m sig.start ⟨sig, src⟩ else m
  | none => insertEntry m sig.start ⟨sig, src⟩

/-- Stable insertion step for sorting by start address. -/
def insertSorted (f : FunctionSignature) :
    List FunctionSignature → List FunctionSignature
  | [] => [f]
  | g :: rest => if g.start ≤ f.start then g :: insertSorted f rest else f :: g :: rest

/-- `Vec::sort_by_key(|f| f.start)`: a stable sort by start address. -/
def sortByStart : List FunctionSignature → List FunctionSignature
  | [] => []
  | f :: rest => insertSorted f (sortByStart rest)

/-- `HashMap::into_values().map(|e| e.signature)`. -/
def mapValues (m : List (Nat × FunctionEntry)) : List FunctionSignature :=
  m.map (fun kv => kv.2.signature)

/-- The merge loop of `BinaryAnalysis::add_functions`: fold `mergeOne`
over the incoming candidates. -/
def mergeFold (m0 : List (Nat × FunctionEntry)) (new_functions : List FunctionSignature)
    (src : FunctionSource) : List (Nat × FunctionEntry) :=
  new_functions.foldl (fun m sig => mergeOne m sig src) m0

/-- `BinaryAnalysis::add_functions` (binary.rs lines 96-125): rebuild the
map from the current list, merge the new candidates with priority-based
deduplication, and store the values back sorted by start address. -/
def add_functions (fns new_functions : List FunctionSignature)
    (source : FunctionSource) : List FunctionSignature :=
  sortByStart (mapValues (mergeFold (get_function_map fns) new_functions source))

/-- `BinaryAnalysis::identify_entry_point` (binary.rs lines 222-270), with
the header's `entry_point()` value passed explicitly.  If the entry address
is zero the function list is returned unchanged; otherwise the candidate at
the entry address is renamed to `"entry"` and promoted to `Manual`, or a
synthetic zero-sized `"entry"` candidate is inserted. -/
def identify_entry_point (fns : List FunctionSignature) (entry_addr : Nat) :
    List FunctionSignature :=
  if entry_addr = 0 then fns
  else
    let m := get_function_map fns
    let m2 := match lookupEntry m entry_addr with
      | some e =>
        insertEntry m entry_addr
          ⟨{ e.signature with function_identifier := entryName }, .Manual⟩
      | none =>
        insertEntry m entry_addr ⟨⟨entryName, entry_addr, entry_addr, 0⟩, .Manual⟩
    sortByStart (mapValues m2)

/-- `BinaryAnalysis::sort_functions` (binary.rs lines 273-276). -/
def sort_functions (fns : List FunctionSignature) : List FunctionSignature :=
  sortByStart fns

/-- The function retained at start address `a` in a function list. -/
def findAt (fns : List FunctionSignature) (a : Nat) : Option FunctionSignature :=
  fns.find? (fun f => f.start == a)

/-- Little-endian read of `n` bytes starting at offset `off` (bytes past the
end of the buffer read as 0; all actual uses stay in bounds). -/
def readLE (data : List Nat) (off : Nat) : Nat → Nat
  | 0 => 0
  | n + 1 => data.getD off 0 + 256 * readLE data (off + 1) n

/-- `Elf64Sym` from `frame_analyzers/symtab.rs` (24-byte records). -/
structure Elf64Sym where
  st_name : Nat
  st_info : Nat
  st_other : Nat
  st_shndx : Nat
  st_value : Nat
  st_size : Nat
deriving DecidableEq

/-- Decode one 24-byte symbol record at offset `off`, in the field order and
little-endian widths used by `Elf64Sym::from_section` (u32 name, u8 info,
u8 other, u16 shndx, u64 value, u64 size). -/
def readSym (data : List Nat) (off : Nat) : Elf64Sym :=
  { st_name := readLE data off 4
    st_info := readLE data (off + 4) 1
    st_other := readLE data (off + 5) 1
    st_shndx := readLE data (off + 6) 2
    st_value := readLE data (off + 8) 8
    st_size := readLE data (off + 16) 8 }

/-- `Elf64Sym::from_section` (symtab.rs lines 21-59): fail when the byte
length is not a multiple of the 24-byte record size, otherwise decode every
record, dropping those with `st_shndx == SHN_UNDEF` (0), `st_value == 0` or
`st_size == 0`. -/
def from_section (symtab_data : List Nat) : Except Unit (List Elf64Sym) :=
  if symtab_data.length % 24 ≠ 0 then .error ()
  else .ok ((List.range (symtab_data.length / 24)).filterMap (fun i =>
    let s := readSym symtab_data (i * 24)
    if s.st_shndx = 0 ∨ s.st_value = 0 ∨ s.st_size = 0 then none else some s))

/-- Bytes of the fallback literal `"<invalid_utf8>"`. -/
def invalidUtf8Name : List Nat := asciiBytes "<invalid_utf8>"

/-- Bytes of the fallback literal `"<invalid_name>"`. -/
def invalidNameName : List Nat := asciiBytes "<invalid_name>"

/-- Bytes of `format!("FUNC_{:#x}", value)`: `"FUNC_0x"` followed by the
lowercase hexadecimal digits of `value` (no leading zeros; `0x0` for 0). -/
def funcHexName (value : Nat) : List Nat :=
  asciiBytes "FUNC_0x" ++ (Nat.toDigits 16 value).map Char.toNat

/-- Whether a byte is a UTF-8 continuation byte (`0x80..=0xBF`). -/
def isCont (b : Nat) : Bool := decide (128 ≤ b ∧ b ≤ 191)

/-- UTF-8 validity of a byte sequence, as checked by
`std::str::from_utf8`: ASCII, 2-byte `C2..DF`, 3-byte `E0 A0..BF`,
`E1..EC`, `ED 80..9F` (no surrogates), `EE..EF`, 4-byte `F0 90..BF`,
`F1..F3`, `F4 80..8F` (≤ U+10FFFF), each followed by continuation bytes. -/
def validUtf8 : List Nat → Bool
  | [] => true
  | b :: rest =>
    if b < 128 then validUtf8 rest
    else if 194 ≤ b ∧ b ≤ 223 then
      match rest with
      | c1 :: r => isCont c1 && validUtf8 r
      | [] => false
    else if b = 224 then
      match rest with
      | c1 :: c2 :: r => decide (160 ≤ c1 ∧ c1 ≤ 191) && isCont c2 && validUtf8 r
      | _ => false
    else if 225 ≤ b ∧ b ≤ 236 then
      match rest with
      | c1 :: c2 :: r => isCont c1 && isCont c2 && validUtf8 r
      | _ => false
    else if b = 237 then
      match rest with
      | c1 :: c2 :: r => decide (128 ≤ c1 ∧ c1 ≤ 159) && isCont c2 && validUtf8 r
      | _ => false
    else if 238 ≤ b ∧ b ≤ 239 then
      match rest with
      | c1 :: c2 :: r => isCont c1 && isCont c2 && validUtf8 r
      | _ => false
    else if b = 240 then
      match rest with
      | c1 :: c2 :: c3 :: r =>
        decide (144 ≤ c1 ∧ c1 ≤ 191) && isCont c2 && isCont c3 && validUtf8 r
      | _ => false
    else if 241 ≤ b ∧ b ≤ 243 then
      match rest with
      | c1 :: c2 :: c3 :: r => isCont c1 && isCont c2 && isCont c3 && validUtf8 r
      | _ => false
    else if b = 244 then
      match rest with
      | c1 :: c2 :: c3 :: r =>
        decide (128 ≤ c1 ∧ c1 ≤ 143) && isCont c2 && isCont c3 && validUtf8 r
      | _ => false
    else false

/-- The bytes of the null-terminated string at offset `off` in the string
table: everything up to the first NUL, or to the end of the table. -/
def readCString (strtab_data : List Nat) (off : Nat) : List Nat :=
  (strtab_data.drop off).takeWhile (fun b => b ≠ 0)

/-- The final step of name resolution: an empty resolved name is replaced
by `FUNC_<hex value>`. -/
def resolveNameAux (name : List Nat) (st_value : Nat) : List Nat :=
  if name = [] then funcHexName st_value else name

/-- Name resolution inside `parse_symtab_64` (symtab.rs lines 91-108): if
the name offset is in bounds, take the bytes up to the first NUL (or the
end of the string table); decode them as UTF-8, substituting
`"<invalid_utf8>"` on failure.  An out-of-bounds offset yields
`"<invalid_name>"`.  An empty resolved name is replaced by
`FUNC_<hex value>`. -/
def resolveName (strtab_data : List Nat) (st_name st_value : Nat) : List Nat :=
  resolveNameAux
    (if st_name < strtab_data.length then
      (if validUtf8 (readCString strtab_data st_name) then readCString strtab_data st_name
       else invalidUtf8Name)
     else invalidNameName) st_value

/-- `parse_symtab_64` (symtab.rs lines 85-118).  The Rust function returns
`Ok` on every input, so it is modelled as a total function.  The `u64`
addition `st_value + st_size` wraps around. -/
def parse_symtab_64 (symbols : List Elf64Sym) (strtab_data : List Nat) :
    List FunctionSignature :=
  symbols.map (fun symbol =>
    { function_identifier := resolveName strtab_data symbol.st_name symbol.st_value
      start := symbol.st_value
      end_addr := (symbol.st_value + symbol.st_size) % 2 ^ 64
      size := symbol.st_size })

/-- The scanner pipeline of `BinaryAnalysis::analyze_symtab` (binary.rs
lines 197-201) applied to the raw `.symtab` and `.strtab` bytes: decode the
records, build the candidates and merge them at `SymTab` priority.  An
error from `from_section` propagates through the `?` operator before
`add_functions` is reached. -/
def analyze_symtab (fns : List FunctionSignature) (symtab_data strtab_data : List Nat) :
    Except Unit (List FunctionSignature) :=
  match from_section symtab_data with
  | .error e => .error e
  | .ok symtabs => .ok (add_functions fns (parse_symtab_64 symtabs strtab_data) .SymTab)

/-- The state of `self.functions` after a call to `analyze_symtab`: the
merged list on success, the previous list unchanged when the scanner fails
(the `?` operator returns before `self.functions` is touched). -/
def analyze_symtab_run (fns : List FunctionSignature) (symtab_data strtab_data : List Nat) :
    List FunctionSignature :=
  match analyze_symtab fns symtab_data strtab_data with
  | .ok fns2 => fns2
  | .error _ => fns

/-- Keys of the registry are pairwise distinct. -/
def KeysNodup (m : List (Nat × FunctionEntry)) : Prop :=
  (m.map Prod.fst).Nodup

/-- Every stored entry's signature starts at its key. -/
def KeyStart (m : List (Nat × FunctionEntry)) : Prop :=
  ∀ kv ∈ m, kv.2.signature.start = kv.1

/-- A function list with pairwise distinct start addresses. -/
def StartsDistinct (l : List FunctionSignature) : Prop :=
  l.Pairwise (fun f g => f.start ≠ g.start)

/-- A function list strictly ascending by start address. -/
def StrictSorted (l : List FunctionSignature) : Prop :=
  l.Pairwise (fun f g => f.start < g.start)

/-- Analysis states reachable from a freshly opened binary by any sequence
of scanner merges (`add_functions` calls, in any order, with any sources,
any number of times). -/
inductive Scanned : List FunctionSignature → Prop where
  | init : Scanned []
  | step (fns new : List FunctionSignature) (src : FunctionSource) :
      Scanned fns → Scanned (add_functions fns new src)

/-- A full analysis as a sequence of merge operations: each operation is a
candidate list together with the source it is merged at.  `runMerges`
threads them through `add_functions` starting from the freshly opened
(empty) state. -/
def runMerges (ops : List (List FunctionSignature × FunctionSource)) :
    List FunctionSignature :=
  ops.foldl (fun st op => add_functions st op.1 op.2) []

/-- All individual contributions of a merge sequence, in order: one
`(candidate, source)` pair per candidate. -/
def contribPairs : List (List FunctionSignature × FunctionSource) →
    List (FunctionSignature × FunctionSource)
  | [] => []
  | op :: rest => op.1.map (fun f => (f, op.2)) ++ contribPairs rest

/-- The registry invariant claimed by the specification, at address `a`:
the stored source's priority is the maximum priority ever contributed for
`a`, and the stored candidate is the first one contributed at that
priority. -/
def RegistryInvariant (hs : List (FunctionSignature × FunctionSource))
    (m : List (Nat × FunctionEntry)) (a : Nat) : Prop :=
  match lookupEntry m a with
  | none => hs.filter (fun c => c.1.start == a) = []
  | some e =>
      (∃ c ∈ hs.filter (fun c => c.1.start == a), c.2.prio = e.source.prio) ∧
      (∀ c ∈ hs.filter (fun c => c.1.start == a), c.2.prio ≤ e.source.prio) ∧
      ((hs.filter (fun c => c.1.start == a)).find?
        (fun c => c.2.prio == e.source.prio)).map Prod.fst = some e.signature

/-- Pointwise equality of registries. -/
def EqMap (m1 m2 : List (Nat × FunctionEntry)) : Prop :=
  ∀ a, lookupEntry m1 a = lookupEntry m2 a

/-- All stored sources agree with the identifier-based inference. -/
def SourceFaithful (m : List (Nat × FunctionEntry)) : Prop :=
  ∀ a e, lookupEntry m a = some e → e.source = inferSource e.signature

theorem lookup_insert_self (m : List (Nat × FunctionEntry)) (a : Nat) (e : FunctionEntry) :
    lookupEntry (insertEntry m a e) a = some e := by
  induction m with
  | nil => simp [insertEntry, lookupEntry]
  | cons kv rest ih =>
    obtain ⟨k, e0⟩ := kv
    by_cases hk : k = a
    · subst hk; simp [insertEntry, lookupEntry]
    · simp [insertEntry, lookupEntry, hk, ih]

theorem lookup_insert_ne (m : List (Nat × FunctionEntry)) (a b : Nat) (e : FunctionEntry)
    (h : b ≠ a) : lookupEntry (insertEntry m a e) b = lookupEntry m b := by
  induction m with
  | nil => simp [insertEntry, lookupEntry, Ne.symm h]
  | cons kv rest ih =>
    obtain ⟨k, e0⟩ := kv
    by_cases hk : k = a
    · subst hk
      simp [insertEntry, lookupEntry, Ne.symm h]
    · simp only [insertEntry, if_neg hk, lookupEntry]
      by_cases hkb : k = b
      · simp [hkb]
      · simp [hkb, ih]

theorem lookup_mem {m : List (Nat × FunctionEntry)} {a : Nat} {e : FunctionEntry}
    (h : lookupEntry m a = some e) : (a, e) ∈ m := by
  induction m with
  | nil => simp [lookupEntry] at h
  | cons kv rest ih =>
    obtain ⟨k, e0⟩ := kv
    by_cases hk : k = a
    · subst hk
      simp [lookupEntry] at h
      simp [h]
    · simp [lookupEntry, hk] at h
      exact List.mem_cons_of_mem _ (ih h)

theorem mem_insert {m : List (Nat × FunctionEntry)} {a : Nat} {e : FunctionEntry}
    {kv : Nat × FunctionEntry} (h : kv ∈ insertEntry m a e) : kv = (a, e) ∨ kv ∈ m := by
  induction m with
  | nil => simpa [insertEntry] using h
  | cons kv0 rest ih =>
    obtain ⟨k, e0⟩ := kv0
    by_cases hk : k = a
    · subst hk
      simp [insertEntry] at h
      rcases h with h | h
      · exact Or.inl (by simp [h])
      · exact Or.inr (List.mem_cons_of_mem _ h)
    · simp [insertEntry, hk] at h
      rcases h with h | h
      · exact Or.inr (by simp [h])
      · rcases ih h with h2 | h2
        · exact Or.inl h2
        · exact Or.inr (List.mem_cons_of_mem _ h2)

theorem keys_mem_insert {m : List (Nat × FunctionEntry)} {a : Nat} {e : FunctionEntry}
    {b : Nat} (h : b ∈ (insertEntry m a e).map Prod.fst) :
    b = a ∨ b ∈ m.map Prod.fst := by
  rcases List.mem_map.mp h with ⟨kv, hkv, rfl⟩
  rcases mem_insert hkv with h2 | h2
  · exact Or.inl (by simp [h2])
  · exact Or.inr (List.mem_map_of_mem _ h2)

theorem keysNodup_insert {m : List (Nat × FunctionEntry)} {a : Nat} {e : FunctionEntry}
    (h : KeysNodup m) : KeysNodup (insertEntry m a e) := by
  induction m with
  | nil => simp [KeysNodup, insertEntry]
  | cons kv rest ih =>
    obtain ⟨k, e0⟩ := kv
    simp only [KeysNodup, List.map_cons, List.nodup_cons] at h
    by_cases hk : k = a
    · subst hk
      show KeysNodup (if k = k then (k, e) :: rest else (k, e0) :: insertEntry rest k e)
      rw [if_pos rfl]
      simp only [KeysNodup, List.map_cons, List.nodup_cons]
      exact h
    · have ih2 := ih h.2
      simp only [KeysNodup, insertEntry, if_neg hk, List.map_cons, List.nodup_cons]
      refine ⟨fun hmem => ?_, ih2⟩
      rcases keys_mem_insert hmem with h3 | h3
      · exact hk h3
      · exact h.1 h3

theorem keyStart_insert {m : List (Nat × FunctionEntry)} {a : Nat} {e : FunctionEntry}
    (h : KeyStart m) (he : e.signature.start = a) : KeyStart (insertEntry m a e) := by
  intro kv hkv
  rcases mem_insert hkv with h2 | h2
  · subst h2; exact he
  · exact h kv h2

theorem lookup_eq_none_of_not_mem {m : List (Nat × FunctionEntry)} {a : Nat}
    (h : a ∉ m.map Prod.fst) : lookupEntry m a = none := by
  induction m with
  | nil => rfl
  | cons kv rest ih =>
    obtain ⟨k, e0⟩ := kv
    simp only [List.map_cons, List.mem_cons] at h
    push_neg at h
    have hk : k ≠ a := fun hEq => h.1 hEq.symm
    simp [lookupEntry, hk, ih h.2]

/-! ### Merge-step lemmas -/

theorem lookup_mergeOne_ne {m : List (Nat × FunctionEntry)} {sig : FunctionSignature}
    {src : FunctionSource} {a : Nat} (h : sig.start ≠ a) :
    lookupEntry (mergeOne m sig src) a = lookupEntry m a := by
  unfold mergeOne
  rcases hl : lookupEntry m sig.start with _ | e
  · exact lookup_insert_ne m sig.start a _ (Ne.symm h)
  · by_cases hp : e.source.prio < src.prio
    · simp only [if_pos hp]
      exact lookup_insert_ne m sig.start a _ (Ne.symm h)
    · simp [hp]

theorem lookup_mergeOne_self (m : List (Nat × FunctionEntry)) (sig : FunctionSignature)
    (src : FunctionSource) :
    lookupEntry (mergeOne m sig src) sig.start =
      some (match lookupEntry m sig.start with
            | none => ⟨sig, src⟩
            | some e => if e.source.prio < src.prio then ⟨sig, src⟩ else e) := by
  unfold mergeOne
  rcases hl : lookupEntry m sig.start with _ | e
  · simp [lookup_insert_self]
  · by_cases hp : e.source.prio < src.prio
    · simp [hp, lookup_insert_self]
    · simp [hp, hl]

theorem keysNodup_mergeOne {m : List (Nat × FunctionEntry)} {sig : FunctionSignature}
    {src : FunctionSource} (h : KeysNodup m) : KeysNodup (mergeOne m sig src) := by
  unfold mergeOne
  rcases lookupEntry m sig.start with _ | e
  · exact keysNodup_insert h
  · by_cases hp : e.source.prio < src.prio
    · simpa [hp] using @keysNodup_insert m sig.start ⟨sig, src⟩ h
    · simpa [hp] using h

theorem keyStart_mergeOne {m : List (Nat × FunctionEntry)} {sig : FunctionSignature}
    {src : FunctionSource} (h : KeyStart m) : KeyStart (mergeOne m sig src) := by
  unfold mergeOne
  rcases lookupEntry m sig.start with _ | e
  · exact keyStart_insert h rfl
  · by_cases hp : e.source.prio < src.prio
    · simpa [hp] using @keyStart_insert m sig.start ⟨sig, src⟩ h rfl
    · simpa [hp] using h

theorem keysNodup_mergeFold {src : FunctionSource} :
    ∀ (new : List FunctionSignature) (m0 : List (Nat × FunctionEntry)),
      KeysNodup m0 → KeysNodup (mergeFold m0 new src) := by
  intro new
  induction new with
  | nil => intro m0 h; exact h
  | cons f t ih => intro m0 h; exact ih (mergeOne m0 f src) (keysNodup_mergeOne h)

theorem keyStart_mergeFold {src : FunctionSource} :
    ∀ (new : List FunctionSignature) (m0 : List (Nat × FunctionEntry)),
      KeyStart m0 → KeyStart (mergeFold m0 new src) := by
  intro new
  induction new with
  | nil => intro m0 h; exact h
  | cons f t ih => intro m0 h; exact ih (mergeOne m0 f src) (keyStart_mergeOne h)

/-- Characterization of the merge loop at a fixed address `a`: the first
incoming candidate with start `a` contests the existing entry once; later
same-call candidates at `a` never win (their source ties). -/
theorem mergeFold_lookup (src : FunctionSource) (a : Nat) :
    ∀ (new : List FunctionSignature) (m0 : List (Nat × FunctionEntry)),
      lookupEntry (mergeFold m0 new src) a =
        match new.find? (fun f => f.start == a) with
        | none => lookupEntry m0 a
        | some s =>
          match lookupEntry m0 a with
          | none => some ⟨s, src⟩
          | some e => if e.source.prio < src.prio then some ⟨s, src⟩ else some e := by
  intro new
  induction new with
  | nil => intro m0; rfl
  | cons f t ih =>
    intro m0
    by_cases hf : f.start = a
    · have hb : (f.start == a) = true := beq_iff_eq.mpr hf
      have hfind : (f :: t).find? (fun f => f.start == a) = some f := by
        simp [List.find?, hb]
      rw [hfind]
      have hstep : mergeFold m0 (f :: t) src = mergeFold (mergeOne m0 f src) t src := rfl
      rw [hstep, ih (mergeOne m0 f src)]
      have hself : lookupEntry (mergeOne m0 f src) a =
          some (match lookupEntry m0 a with
                | none => ⟨f, src⟩
                | some e => if e.source.prio < src.prio then ⟨f, src⟩ else e) := by
        rw [← hf]
        exact lookup_mergeOne_self m0 f src
      rw [hself]
      rcases ht : t.find? (fun f => f.start == a) with _ | s
      · rw [ht]
        rcases lookupEntry m0 a with _ | e
        · rfl
        · by_cases hp : e.source.prio < src.prio <;> simp [hp]
      · rw [ht]
        rcases lookupEntry m0 a with _ | e
        · simp [Nat.lt_irrefl]
        · by_cases hp : e.source.prio < src.prio <;> simp [hp, Nat.lt_irrefl]
    · have hb : (f.start == a) = false := beq_eq_false_iff_ne.mpr hf
      have hfind : (f :: t).find? (fun f => f.start == a) = t.find? (fun f => f.start == a) := by
        simp [List.find?, hb]
      rw [hfind]
      have hstep : mergeFold m0 (f :: t) src = mergeFold (mergeOne m0 f src) t src := rfl
      rw [hstep, ih (mergeOne m0 f src), lookup_mergeOne_ne hf]

/-! ### get_function_map lemmas -/

theorem keysNodup_gfm_fold :
    ∀ (l : List FunctionSignature) (m0 : List (Nat × FunctionEntry)),
      KeysNodup m0 → KeysNodup (l.foldl gfmStep m0) := by
  intro l
  induction l with
  | nil => intro m0 h; exact h
  | cons f t ih => intro m0 h; exact ih (gfmStep m0 f) (keysNodup_insert h)

theorem keyStart_gfm_fold :
    ∀ (l : List FunctionSignature) (m0 : List (Nat × FunctionEntry)),
      KeyStart m0 → KeyStart (l.foldl gfmStep m0) := by
  intro l
  induction l with
  | nil => intro m0 h; exact h
  | cons f t ih => intro m0 h; exact ih (gfmStep m0 f) (keyStart_insert h rfl)

theorem keysNodup_gfm (fns : List FunctionSignature) : KeysNodup (get_function_map fns) :=
  keysNodup_gfm_fold fns [] (by simp [KeysNodup])

theorem keyStart_gfm (fns : List FunctionSignature) : KeyStart (get_function_map fns) :=
  keyStart_gfm_fold fns [] (by intro kv h; simp at h)

theorem lookup_gfm_fold_none {a : Nat} :
    ∀ (l : List FunctionSignature) (m0 : List (Nat × FunctionEntry)),
      (∀ f ∈ l, f.start ≠ a) →
      lookupEntry (l.foldl gfmStep m0) a = lookupEntry m0 a := by
  intro l
  induction l with
  | nil => intro m0 _; rfl
  | cons f t ih =>
    intro m0 h
    have h1 : f.start ≠ a := h f (List.mem_cons_self f t)
    have h2 : ∀ g ∈ t, g.start ≠ a := fun g hg => h g (List.mem_cons_of_mem f hg)
    show lookupEntry (t.foldl gfmStep (gfmStep m0 f)) a = lookupEntry m0 a
    rw [ih (gfmStep m0 f) h2]
    exact lookup_insert_ne m0 f.start a _ (Ne.symm h1)

/-- On a list with pairwise distinct start addresses, the rebuilt map
stores, at each address, the unique candidate with that start together
with its re-inferred source. -/
theorem lookup_gfm_fold (a : Nat) :
    ∀ (l : List FunctionSignature) (m0 : List (Nat × FunctionEntry)),
      StartsDistinct l →
      lookupEntry (l.foldl gfmStep m0) a =
        match l.find? (fun f => f.start == a) with
        | some f => some ⟨f, inferSource f⟩
        | none => lookupEntry m0 a := by
  intro l
  induction l with
  | nil => intro m0 _; rfl
  | cons f t ih =>
    intro m0 hd
    rcases List.pairwise_cons.mp hd with ⟨hhead, htail⟩
    by_cases hf : f.start = a
    · have hb : (f.start == a) = true := beq_iff_eq.mpr hf
      have hfind : (f :: t).find? (fun f => f.start == a) = some f := by
        simp [List.find?, hb]
      rw [hfind]
      have h2 : ∀ g ∈ t, g.start ≠ a := by
        intro g hg
        have h3 := hhead g hg
        omega
      show lookupEntry (t.foldl gfmStep (gfmStep m0 f)) a = some ⟨f, inferSource f⟩
      rw [lookup_gfm_fold_none t (gfmStep m0 f) h2]
      unfold gfmStep
      rw [← hf]
      exact lookup_insert_self m0 f.start _
    · have hb : (f.start == a) = false := beq_eq_false_iff_ne.mpr hf
      have hfind : (f :: t).find? (fun f => f.start == a) = t.find? (fun f => f.start == a) := by
        simp [List.find?, hb]
      rw [hfind]
      show lookupEntry (t.foldl gfmStep (gfmStep m0 f)) a = _
      rw [ih (gfmStep m0 f) htail]
      rcases ht : t.find? (fun f => f.start == a) with _ | s
      · rw [ht]
        exact lookup_insert_ne m0 f.start a _ (Ne.symm hf)
      · rw [ht]

/-- `lookup` on `get_function_map` of a distinct-starts list. -/
theorem lookup_gfm {l : List FunctionSignature} (h : StartsDistinct l) (a : Nat) :
    lookupEntry (get_function_map l) a =
      (findAt l a).map (fun f => (⟨f, inferSource f⟩ : FunctionEntry)) := by
  rw [get_function_map, lookup_gfm_fold a l [] h, findAt]
  rcases hfind : l.find? (fun f => f.start == a) with _ | s <;> rw [hfind] <;> rfl

/-- Every entry of the rebuilt map comes from the drained list, with its
source re-inferred from its identifier. -/
theorem mem_gfm_fold :
    ∀ (l : List FunctionSignature) (m0 : List (Nat × FunctionEntry))
      (k : Nat) (e : FunctionEntry), (k, e) ∈ l.foldl gfmStep m0 →
      (k, e) ∈ m0 ∨
        (e.signature ∈ l ∧ e.source = inferSource e.signature ∧ k = e.signature.start) := by
  intro l
  induction l with
  | nil => intro m0 k e h; exact Or.inl h
  | cons f t ih =>
    intro m0 k e h
    rcases ih (gfmStep m0 f) k e h with h2 | h2
    · rcases mem_insert h2 with h3 | h3
      · have h4 : k = f.start ∧ e = ⟨f, inferSource f⟩ := by
          constructor <;> [exact congrArg Prod.fst h3; exact congrArg Prod.snd h3]
        exact Or.inr ⟨by rw [h4.2]; exact List.mem_cons_self f t, by rw [h4.2], by rw [h4.1, h4.2]⟩
      · exact Or.inl h3
    · exact Or.inr ⟨List.mem_cons_of_mem f h2.1, h2.2.1, h2.2.2⟩

/-! ### Sorting lemmas -/

theorem perm_insertSorted (f : FunctionSignature) :
    ∀ l : List FunctionSignature, (insertSorted f l).Perm (f :: l) := by
  intro l
  induction l with
  | nil => simp [insertSorted]
  | cons g rest ih =>
    by_cases hle : g.start ≤ f.start
    · simp only [insertSorted, if_pos hle]
      exact (ih.cons g).trans (List.Perm.swap f g rest)
    · simp [insertSorted, hle]

theorem perm_sortByStart : ∀ l : List FunctionSignature, (sortByStart l).Perm l := by
  intro l
  induction l with
  | nil => simp [sortByStart]
  | cons f rest ih =>
    exact (perm_insertSorted f (sortByStart rest)).trans (ih.cons f)

theorem sorted_insertSorted (f : FunctionSignature) :
    ∀ l : List FunctionSignature,
      l.Pairwise (fun a b => a.start ≤ b.start) →
      (insertSorted f l).Pairwise (fun a b => a.start ≤ b.start) := by
  intro l
  induction l with
  | nil => intro _; simp [insertSorted]
  | cons g rest ih =>
    intro h
    rcases List.pairwise_cons.mp h with ⟨hhead, htail⟩
    by_cases hle : g.start ≤ f.start
    · simp only [insertSorted, if_pos hle]
      refine List.pairwise_cons.mpr ⟨?_, ih htail⟩
      intro x hx
      rcases List.mem_cons.mp ((perm_insertSorted f rest).mem_iff.mp hx) with h2 | h2
      · rw [h2]; exact hle
      · exact hhead x h2
    · simp only [insertSorted, if_neg hle]
      refine List.pairwise_cons.mpr ⟨?_, h⟩
      intro x hx
      rcases List.mem_cons.mp hx with h2 | h2
      · rw [h2]; omega
      · have h3 := hhead x h2
        omega

theorem sorted_sortByStart (l : List FunctionSignature) :
    (sortByStart l).Pairwise (fun a b => a.start ≤ b.start) := by
  induction l with
  | nil => simp [sortByStart]
  | cons f rest ih => exact sorted_insertSorted f (sortByStart rest) ih

/-- Sorting a strictly ascending list leaves it unchanged. -/
theorem sortByStart_of_strict : ∀ l : List FunctionSignature,
    StrictSorted l → sortByStart l = l := by
  intro l
  induction l with
  | nil => intro _; rfl
  | cons f rest ih =>
    intro h
    rcases List.pairwise_cons.mp h with ⟨hhead, htail⟩
    show insertSorted f (sortByStart rest) = f :: rest
    rw [ih htail]
    cases rest with
    | nil => rfl
    | cons g rest2 =>
      have hgt : ¬g.start ≤ f.start := by
        have h2 := hhead g (List.mem_cons_self g rest2)
        omega
      simp [insertSorted, hgt]

/-! ### From map invariants to list shape -/

theorem startsDistinct_mapValues :
    ∀ m : List (Nat × FunctionEntry), KeysNodup m → KeyStart m →
      (mapValues m).Pairwise (fun f g => f.start ≠ g.start) := by
  intro m
  induction m with
  | nil => intro _ _; simp [mapValues]
  | cons kv rest ih =>
    intro h1 h2
    obtain ⟨k, e⟩ := kv
    simp only [KeysNodup, List.map_cons, List.nodup_cons] at h1
    have hstart : e.signature.start = k := h2 (k, e) (List.mem_cons_self _ _)
    have h2rest : KeyStart rest := fun kv hkv => h2 kv (List.mem_cons_of_mem _ hkv)
    refine List.pairwise_cons.mpr ⟨?_, ih h1.2 h2rest⟩
    intro v hv
    rcases List.mem_map.mp hv with ⟨⟨k2, e2⟩, hk2, rfl⟩
    have hs2 : e2.signature.start = k2 := h2rest (k2, e2) hk2
    have hk2mem : k2 ∈ rest.map Prod.fst := List.mem_map_of_mem _ hk2
    have hne : k ≠ k2 := fun hEq => h1.1 (hEq ▸ hk2mem)
    rw [hstart, hs2]
    exact hne

/-- The values of a well-formed registry, sorted by start, are strictly
ascending by start. -/
theorem strictSorted_sortValues (m : List (Nat × FunctionEntry))
    (h1 : KeysNodup m) (h2 : KeyStart m) :
    StrictSorted (sortByStart (mapValues m)) := by
  have hdist : (mapValues m).Pairwise (fun f g => f.start ≠ g.start) :=
    startsDistinct_mapValues m h1 h2
  have hdist2 : (sortByStart (mapValues m)).Pairwise (fun f g => f.start ≠ g.start) :=
    hdist.perm (perm_sortByStart (mapValues m)).symm (fun h => h.symm)
  have hle := sorted_sortByStart (mapValues m)
  have hcomb := hle.and hdist2
  exact hcomb.imp (fun h => Nat.lt_of_le_of_ne h.1 h.2)

theorem find?_eq_head_filter {α : Type} (p : α → Bool) :
    ∀ l : List α, l.find? p = (l.filter p).head? := by
  intro l
  induction l with
  | nil => rfl
  | cons x rest ih =>
    rcases hp : p x with _ | _
    · rw [List.find?_cons_of_neg rest (by simp [hp]),
        List.filter_cons_of_neg (by simp [hp]), ih]
    · rw [List.find?_cons_of_pos rest hp, List.filter_cons_of_pos hp]
      rfl

theorem filter_mapValues (a : Nat) :
    ∀ m : List (Nat × FunctionEntry), KeysNodup m → KeyStart m →
      (mapValues m).filter (fun f => f.start == a) =
        (match lookupEntry m a with
         | some e => [e.signature]
         | none => []) := by
  intro m
  induction m with
  | nil => intro _ _; rfl
  | cons kv rest ih =>
    intro h1 h2
    obtain ⟨k, e⟩ := kv
    simp only [KeysNodup, List.map_cons, List.nodup_cons] at h1
    have hstart : e.signature.start = k := h2 (k, e) (List.mem_cons_self _ _)
    have h2rest : KeyStart rest := fun kv hkv => h2 kv (List.mem_cons_of_mem _ hkv)
    by_cases hk : k = a
    · subst hk
      have hb : (e.signature.start == k) = true := beq_iff_eq.mpr hstart
      have hrest2 : (mapValues rest).filter (fun f => f.start == k) = [] := by
        apply List.filter_eq_nil_iff.mpr
        intro v hv
        rcases List.mem_map.mp hv with ⟨kv, hkv, rfl⟩
        have hs := h2rest kv hkv
        have hkmem : kv.1 ∈ rest.map Prod.fst := List.mem_map_of_mem _ hkv
        have hne : kv.1 ≠ k := fun hEq => h1.1 (hEq ▸ hkmem)
        simp [hs, hne]
      show (e.signature :: mapValues rest).filter (fun f => f.start == k) = _
      rw [@List.filter_cons_of_pos _ (fun f => f.start == k) e.signature (mapValues rest) hb,
        hrest2]
      show [e.signature] = (match (if k = k then some e else lookupEntry rest k) with
        | some e => [e.signature] | none => [])
      rw [if_pos rfl]
    · have hb : (e.signature.start == a) = false := by
        rw [hstart]
        exact beq_eq_false_iff_ne.mpr hk
      show (e.signature :: mapValues rest).filter (fun f => f.start == a) = _
      rw [@List.filter_cons_of_neg _ (fun f => f.start == a) e.signature (mapValues rest)
        (by simp [hb])]
      rw [ih h1.2 h2rest]
      show _ = (match (if k = a then some e else lookupEntry rest a) with
        | some e => [e.signature] | none => [])
      rw [if_neg hk]

/-- Core bridge: after storing the registry back as a sorted list, the
function retained at address `a` is exactly the signature held by the
registry at key `a`. -/
theorem findAt_sortValues (m : List (Nat × FunctionEntry))
    (h1 : KeysNodup m) (h2 : KeyStart m) (a : Nat) :
    findAt (sortByStart (mapValues m)) a = (lookupEntry m a).map (fun e => e.signature) := by
  rw [findAt, find?_eq_head_filter]
  have hperm : ((sortByStart (mapValues m)).filter (fun f => f.start == a)).Perm
      ((mapValues m).filter (fun f => f.start == a)) :=
    (perm_sortByStart (mapValues m)).filter _
  rw [filter_mapValues a m h1 h2] at hperm
  rcases hl : lookupEntry m a with _ | e
  · rw [hl] at hperm
    rw [List.Perm.eq_nil hperm]
    rfl
  · rw [hl] at hperm
    rw [List.perm_singleton.mp hperm]
    rfl

/-! ### Shape of the engine outputs -/

theorem strictSorted_add_functions (fns new : List FunctionSignature) (src : FunctionSource) :
    StrictSorted (add_functions fns new src) :=
  strictSorted_sortValues _
    (keysNodup_mergeFold new (get_function_map fns) (keysNodup_gfm fns))
    (keyStart_mergeFold new (get_function_map fns) (keyStart_gfm fns))

theorem findAt_add_functions (fns new : List FunctionSignature) (src : FunctionSource) (a : Nat) :
    findAt (add_functions fns new src) a =
      (lookupEntry (mergeFold (get_function_map fns) new src) a).map (fun e => e.signature) :=
  findAt_sortValues _
    (keysNodup_mergeFold new (get_function_map fns) (keysNodup_gfm fns))
    (keyStart_mergeFold new (get_function_map fns) (keyStart_gfm fns)) a

theorem lookup_gfm_none {fns : List FunctionSignature} {a : Nat}
    (h : ∀ f ∈ fns, f.start ≠ a) : lookupEntry (get_function_map fns) a = none := by
  rw [get_function_map, lookup_gfm_fold_none fns [] h]
  rfl

/-- For a nonzero entry address, `identify_entry_point` stores back the
rebuilt registry with one entry replaced or added at the entry address: an
`"entry"`-named signature at `Manual` priority, keeping the fields of the
pre-existing candidate when there was one and synthesizing a zero-sized
stub otherwise. -/
theorem identify_shape (fns : List FunctionSignature) (a : Nat) (h : a ≠ 0) :
    ∃ sigE : FunctionSignature,
      identify_entry_point fns a =
        sortByStart (mapValues (insertEntry (get_function_map fns) a ⟨sigE, .Manual⟩)) ∧
      sigE.function_identifier = entryName ∧ sigE.start = a ∧
      ((∀ g ∈ fns, g.start ≠ a) → sigE = ⟨entryName, a, a, 0⟩) := by
  rcases hl : lookupEntry (get_function_map fns) a with _ | e
  · refine ⟨⟨entryName, a, a, 0⟩, ?_, rfl, rfl, fun _ => rfl⟩
    unfold identify_entry_point
    rw [if_neg h]
    simp only [hl]
  · refine ⟨{ e.signature with function_identifier := entryName }, ?_, rfl, ?_, ?_⟩
    · unfold identify_entry_point
      rw [if_neg h]
      simp only [hl]
    · have h2 := keyStart_gfm fns (a, e) (lookup_mem hl)
      simpa using h2
    · intro hno
      rw [lookup_gfm_none hno] at hl
      cases hl

theorem strictSorted_identify (fns : List FunctionSignature) (a : Nat) (h : a ≠ 0) :
    StrictSorted (identify_entry_point fns a) := by
  rcases identify_shape fns a h with ⟨sigE, heq, hname, hstart, hsynth⟩
  rw [heq]
  exact strictSorted_sortValues _
    (keysNodup_insert (keysNodup_gfm fns))
    (keyStart_insert (keyStart_gfm fns) hstart)

theorem identify_zero (fns : List FunctionSignature) : identify_entry_point fns 0 = fns := by
  unfold identify_entry_point
  rw [if_pos rfl]

theorem startsDistinct_of_strict {l : List FunctionSignature} (h : StrictSorted l) :
    StartsDistinct l :=
  h.imp (fun hlt => Nat.ne_of_lt hlt)

theorem strictSorted_scanned {st : List FunctionSignature} (h : Scanned st) :
    StrictSorted st := by
  induction h with
  | init => exact List.Pairwise.nil
  | step fns new src _ _ => exact strictSorted_add_functions fns new src

theorem insert_mem_self (m : List (Nat × FunctionEntry)) (a : Nat) (e : FunctionEntry) :
    (a, e) ∈ insertEntry m a e := by
  induction m with
  | nil => simp [insertEntry]
  | cons kv rest ih =>
    obtain ⟨k, e0⟩ := kv
    by_cases hk : k = a
    · subst hk
      simp [insertEntry]
    · simp only [insertEntry, if_neg hk]
      exact List.mem_cons_of_mem _ ih

theorem mem_insert_key_eq {m : List (Nat × FunctionEntry)} {a : Nat} {e : FunctionEntry}
    {kv : Nat × FunctionEntry} (hnd : KeysNodup m) (h : kv ∈ insertEntry m a e)
    (hkey : kv.1 = a) : kv = (a, e) := by
  induction m with
  | nil =>
    simp [insertEntry] at h
    simp [h]
  | cons kv0 rest ih =>
    obtain ⟨k, e0⟩ := kv0
    simp only [KeysNodup, List.map_cons, List.nodup_cons] at hnd
    by_cases hk : k = a
    · subst hk
      simp only [insertEntry, if_pos rfl] at h
      rcases List.mem_cons.mp h with h2 | h2
      · simp [h2]
      · exfalso
        have : kv.1 ∈ rest.map Prod.fst := List.mem_map_of_mem _ h2
        rw [hkey] at this
        exact hnd.1 this
    · simp only [insertEntry, if_neg hk] at h
      rcases List.mem_cons.mp h with h2 | h2
      · exfalso
        rw [h2] at hkey
        exact hk hkey
      · exact ih hnd.2 h2

theorem nodup_of_strict {l : List FunctionSignature} (h : StrictSorted l) : l.Nodup :=
  h.imp (fun hlt hEq => by rw [hEq] at hlt; exact Nat.lt_irrefl _ hlt)

theorem filter_eq_single {α : Type} (p : α → Bool) (x : α) :
    ∀ l : List α, l.Nodup → x ∈ l → p x = true →
      (∀ y ∈ l, p y = true → y = x) → l.filter p = [x] := by
  intro l
  induction l with
  | nil => intro _ hx; cases hx
  | cons hd0 t ih =>
    intro hnd hx hpx huniq
    rcases List.nodup_cons.mp hnd with ⟨hh, ht⟩
    rcases List.mem_cons.mp hx with hEq | hx2
    · subst hEq
      rw [List.filter_cons_of_pos hpx]
      have ht0 : t.filter p = [] := by
        apply List.filter_eq_nil_iff.mpr
        intro y hy hpy
        exact hh ((huniq y (List.mem_cons_of_mem _ hy) hpy) ▸ hy)
      rw [ht0]
    · have hhx : hd0 ≠ x := fun hEq => hh (hEq ▸ hx2)
      have hph : ¬p hd0 = true := fun hph => hhx (huniq hd0 (List.mem_cons_self hd0 t) hph)
      rw [List.filter_cons_of_neg hph]
      exact ih ht hx2 hpx (fun y hy hpy => huniq y (List.mem_cons_of_mem hd0 hy) hpy)

/-! ### Claim theorems -/

/-- C10: when the header's entry-point address is zero,
`identify_entry_point` returns the function list unchanged — nothing is
inserted, renamed or re-prioritized. -/
theorem entry_zero_frame_noop (fns : List FunctionSignature) :
    identify_entry_point fns 0 = fns :=
  identify_zero fns

/-- C5: after any sequence of scanner merges followed by finalization
(entry identification, then the final sort), the function list is strictly
ascending by start address; in particular no two entries share a start
address. -/
theorem finalized_list_strictly_ascending (st : List FunctionSignature)
    (h : Scanned st) (entry_addr : Nat) :
    StrictSorted (sort_functions (identify_entry_point st entry_addr)) ∧
    StartsDistinct (sort_functions (identify_entry_point st entry_addr)) := by
  have hstrict : StrictSorted (identify_entry_point st entry_addr) := by
    by_cases h0 : entry_addr = 0
    · rw [h0, identify_zero]
      exact strictSorted_scanned h
    · exact strictSorted_identify st entry_addr h0
  have heq : sort_functions (identify_entry_point st entry_addr) =
      identify_entry_point st entry_addr := by
    rw [sort_functions, sortByStart_of_strict _ hstrict]
  rw [heq]
  exact ⟨hstrict, startsDistinct_of_strict hstrict⟩

/-- Witness for C5 at a concrete reachable state and entry address. -/
theorem finalized_list_strictly_ascending_witness :
    StrictSorted (sort_functions (identify_entry_point
      (add_functions [] [⟨asciiBytes "main", 16, 20, 4⟩] .SymTab) 5)) ∧
    StartsDistinct (sort_functions (identify_entry_point
      (add_functions [] [⟨asciiBytes "main", 16, 20, 4⟩] .SymTab) 5)) :=
  finalized_list_strictly_ascending _
    (Scanned.step [] [⟨asciiBytes "main", 16, 20, 4⟩] .SymTab Scanned.init) 5

/-- C1: if the static symbol table and the unwind table both contribute a
candidate at address `a` (unwind-table candidates are always `FUNC_`-named,
see `eh_frame.rs`), the candidate retained at `a` after both merges is the
symbol-table one, whichever of the two scanners ran first. -/
theorem static_wins_over_unwind_any_order
    (syms ehs : List FunctionSignature) (a : Nat) (s : FunctionSignature)
    (hfunc : ∀ e ∈ ehs, funcTag.isPrefixOf e.function_identifier)
    (hs : syms.find? (fun f => f.start == a) = some s)
    (he : ∃ e ∈ ehs, e.start = a) :
    findAt (add_functions (add_functions [] syms .SymTab) ehs .EhFrame) a = some s ∧
    findAt (add_functions (add_functions [] ehs .EhFrame) syms .SymTab) a = some s := by
  constructor
  · have h1 : lookupEntry (mergeFold (get_function_map []) syms .SymTab) a =
        some ⟨s, .SymTab⟩ := by
      rw [mergeFold_lookup .SymTab a syms (get_function_map []), hs]
      rfl
    have hfa1 : findAt (add_functions [] syms .SymTab) a = some s := by
      rw [findAt_add_functions, h1]
      rfl
    have hd1 : StartsDistinct (add_functions [] syms .SymTab) :=
      startsDistinct_of_strict (strictSorted_add_functions [] syms .SymTab)
    have hg1 : lookupEntry (get_function_map (add_functions [] syms .SymTab)) a =
        some ⟨s, inferSource s⟩ := by
      rw [lookup_gfm hd1 a, hfa1]
      rfl
    have h2 : lookupEntry (mergeFold
        (get_function_map (add_functions [] syms .SymTab)) ehs .EhFrame) a =
        some ⟨s, inferSource s⟩ := by
      rw [mergeFold_lookup .EhFrame a ehs _, hg1]
      rcases hfind : ehs.find? (fun f => f.start == a) with _ | e2
      · rw [hfind]
      · rw [hfind]
        simp [FunctionSource.prio]
    rw [findAt_add_functions, h2]
    rfl
  · obtain ⟨e0, he0m, he0a⟩ := he
    have hsome : (ehs.find? (fun f => f.start == a)).isSome :=
      List.find?_isSome.mpr ⟨e0, he0m, by simp [he0a]⟩
    obtain ⟨e2, he2⟩ := Option.isSome_iff_exists.mp hsome
    have he2mem : e2 ∈ ehs := List.mem_of_find?_eq_some he2
    have he2inf : inferSource e2 = .EhFrame := by
      unfold inferSource
      rw [if_pos (hfunc e2 he2mem)]
    have hm1 : lookupEntry (mergeFold (get_function_map []) ehs .EhFrame) a =
        some ⟨e2, .EhFrame⟩ := by
      rw [mergeFold_lookup .EhFrame a ehs (get_function_map []), he2]
      rfl
    have hfa1 : findAt (add_functions [] ehs .EhFrame) a = some e2 := by
      rw [findAt_add_functions, hm1]
      rfl
    have hd1 : StartsDistinct (add_functions [] ehs .EhFrame) :=
      startsDistinct_of_strict (strictSorted_add_functions [] ehs .EhFrame)
    have hg1 : lookupEntry (get_function_map (add_functions [] ehs .EhFrame)) a =
        some ⟨e2, .EhFrame⟩ := by
      rw [lookup_gfm hd1 a, hfa1]
      simp [he2inf]
    have h2 : lookupEntry (mergeFold
        (get_function_map (add_functions [] ehs .EhFrame)) syms .SymTab) a =
        some ⟨s, .SymTab⟩ := by
      rw [mergeFold_lookup .SymTab a syms _, hg1, hs]
      simp [FunctionSource.prio]
    rw [findAt_add_functions, h2]
    rfl

/-- Witness for C1 at concrete candidate lists. -/
theorem static_wins_over_unwind_any_order_witness :
    findAt (add_functions (add_functions [] [⟨asciiBytes "main", 16, 20, 4⟩] .SymTab)
      [⟨funcHexName 16, 16, 24, 8⟩] .EhFrame) 16 = some ⟨asciiBytes "main", 16, 20, 4⟩ ∧
    findAt (add_functions (add_functions [] [⟨funcHexName 16, 16, 24, 8⟩] .EhFrame)
      [⟨asciiBytes "main", 16, 20, 4⟩] .SymTab) 16 = some ⟨asciiBytes "main", 16, 20, 4⟩ :=
  static_wins_over_unwind_any_order
    [⟨asciiBytes "main", 16, 20, 4⟩] [⟨funcHexName 16, 16, 24, 8⟩] 16
    ⟨asciiBytes "main", 16, 20, 4⟩ (by decide) (by decide)
    ⟨⟨funcHexName 16, 16, 24, 8⟩, by simp, rfl⟩

/-- C6 fails as stated: two candidates merged at `SymTab` priority in
successive calls, both at start 16.  Because the first one is named
`FUNC_0x10` (the symbol scanner's fallback naming), the rebuild in the
second call re-infers its source as `EhFrame`, and the second candidate
overwrites it: the candidate merged second is retained. -/
theorem first_writer_tie_counterexample :
    findAt (add_functions (add_functions [] [⟨funcHexName 16, 16, 20, 4⟩] .SymTab)
      [⟨asciiBytes "foo", 16, 20, 4⟩] .SymTab) 16 = some ⟨asciiBytes "foo", 16, 20, 4⟩ ∧
    (⟨asciiBytes "foo", 16, 20, 4⟩ : FunctionSignature) ≠ ⟨funcHexName 16, 16, 20, 4⟩ := by
  constructor
  · decide
  · decide

/-- C6 amended: within a single merge call the first candidate at a start
address always wins the tie; across successive merge calls the first
candidate is retained provided the source re-inferred from its identifier
is not lower than its contributed priority. -/
theorem first_writer_tie_amended (c1 c2 : FunctionSignature) (a : Nat) (src : FunctionSource)
    (h1 : c1.start = a) (h2 : c2.start = a) :
    findAt (add_functions [] [c1, c2] src) a = some c1 ∧
    (src.prio ≤ (inferSource c1).prio →
      findAt (add_functions (add_functions [] [c1] src) [c2] src) a = some c1) := by
  have hb1 : (c1.start == a) = true := beq_iff_eq.mpr h1
  have hfind1 : [c1, c2].find? (fun f => f.start == a) = some c1 :=
    List.find?_cons_of_pos _ hb1
  constructor
  · have hm : lookupEntry (mergeFold (get_function_map []) [c1, c2] src) a =
        some ⟨c1, src⟩ := by
      rw [mergeFold_lookup src a [c1, c2] (get_function_map []), hfind1]
      rfl
    rw [findAt_add_functions, hm]
    rfl
  · intro hinf
    have hfind2 : [c1].find? (fun f => f.start == a) = some c1 :=
      List.find?_cons_of_pos _ hb1
    have hm1 : lookupEntry (mergeFold (get_function_map []) [c1] src) a =
        some ⟨c1, src⟩ := by
      rw [mergeFold_lookup src a [c1] (get_function_map []), hfind2]
      rfl
    have hfa1 : findAt (add_functions [] [c1] src) a = some c1 := by
      rw [findAt_add_functions, hm1]
      rfl
    have hd1 : StartsDistinct (add_functions [] [c1] src) :=
      startsDistinct_of_strict (strictSorted_add_functions [] [c1] src)
    have hg1 : lookupEntry (get_function_map (add_functions [] [c1] src)) a =
        some ⟨c1, inferSource c1⟩ := by
      rw [lookup_gfm hd1 a, hfa1]
      rfl
    have hfind3 : [c2].find? (fun f => f.start == a) = some c2 :=
      List.find?_cons_of_pos _ (beq_iff_eq.mpr h2)
    have hm2 : lookupEntry (mergeFold
        (get_function_map (add_functions [] [c1] src)) [c2] src) a =
        some ⟨c1, inferSource c1⟩ := by
      rw [mergeFold_lookup src a [c2] _, hg1, hfind3]
      simp [Nat.not_lt.mpr hinf]
    rw [findAt_add_functions, hm2]
    rfl

/-- Witness for C6 amended: two properly named `SymTab` candidates tie at
start 16 in one call and across two calls; the first is retained in both
settings. -/
theorem first_writer_tie_amended_witness :
    findAt (add_functions [] [⟨asciiBytes "alpha", 16, 20, 4⟩,
      ⟨asciiBytes "beta", 16, 24, 8⟩] .SymTab) 16 = some ⟨asciiBytes "alpha", 16, 20, 4⟩ ∧
    findAt (add_functions (add_functions [] [⟨asciiBytes "alpha", 16, 20, 4⟩] .SymTab)
      [⟨asciiBytes "beta", 16, 24, 8⟩] .SymTab) 16 = some ⟨asciiBytes "alpha", 16, 20, 4⟩ := by
  have h := first_writer_tie_amended ⟨asciiBytes "alpha", 16, 20, 4⟩
    ⟨asciiBytes "beta", 16, 24, 8⟩ 16 .SymTab rfl rfl
  exact ⟨h.1, h.2 (by decide)⟩

/-- C2 fails as stated: with a zero entry address `identify_entry_point`
returns early and no `"entry"` function exists afterwards; and when a
scanner contributed a function literally named `"entry"` at another
address, entry identification leaves two `"entry"`-named functions. -/
theorem entry_identification_counterexample :
    ((identify_entry_point [] 0).filter
      (fun f => f.function_identifier == entryName)).length = 0 ∧
    ((identify_entry_point [⟨entryName, 5, 5, 0⟩] 16400).filter
      (fun f => f.function_identifier == entryName)).length = 2 := by
  constructor
  · decide
  · decide

/-- C2 amended: for a nonzero entry address, and provided no merged
candidate named `"entry"` sits at an address other than the entry address,
`identify_entry_point` leaves exactly one function named `"entry"`, at the
entry address; when no candidate occupied that address it is the synthetic
`{identifier: "entry", start: a, end: a, size: 0}`. -/
theorem entry_identification_amended (fns : List FunctionSignature) (entry_addr : Nat)
    (h0 : entry_addr ≠ 0)
    (hno : ∀ f ∈ fns, f.function_identifier = entryName → f.start = entry_addr) :
    ∃ fE, (identify_entry_point fns entry_addr).filter
        (fun f => f.function_identifier == entryName) = [fE] ∧
      fE.start = entry_addr ∧ fE.function_identifier = entryName ∧
      ((∀ g ∈ fns, g.start ≠ entry_addr) → fE = ⟨entryName, entry_addr, entry_addr, 0⟩) := by
  rcases identify_shape fns entry_addr h0 with ⟨sigE, heq, hname, hstart, hsynth⟩
  refine ⟨sigE, ?_, hstart, hname, hsynth⟩
  rw [heq]
  have hinv1 : KeysNodup (insertEntry (get_function_map fns) entry_addr ⟨sigE, .Manual⟩) :=
    keysNodup_insert (keysNodup_gfm fns)
  have hinv2 : KeyStart (insertEntry (get_function_map fns) entry_addr ⟨sigE, .Manual⟩) :=
    keyStart_insert (keyStart_gfm fns) hstart
  have hstrict := strictSorted_sortValues _ hinv1 hinv2
  apply filter_eq_single _ sigE _ (nodup_of_strict hstrict)
  · apply (perm_sortByStart _).mem_iff.mpr
    exact List.mem_map.mpr ⟨(entry_addr, ⟨sigE, .Manual⟩), insert_mem_self _ _ _, rfl⟩
  · exact beq_iff_eq.mpr hname
  · intro y hy hpy
    have hy2 := (perm_sortByStart _).mem_iff.mp hy
    rcases List.mem_map.mp hy2 with ⟨⟨k2, e2⟩, hkv, rfl⟩
    have hident : e2.signature.function_identifier = entryName := beq_iff_eq.mp hpy
    rcases mem_insert hkv with hEq | hIn
    · rw [hEq]
    · have hIn2 : (k2, e2) ∈ fns.foldl gfmStep [] := by
        rw [get_function_map] at hIn
        exact hIn
      rcases mem_gfm_fold fns [] k2 e2 hIn2 with hfalse | ⟨hmem, _, hk2⟩
      · cases hfalse
      · have hstart2 : e2.signature.start = entry_addr := hno e2.signature hmem hident
        have hk2a : (k2, e2).1 = entry_addr := by
          show k2 = entry_addr
          rw [hk2]
          exact hstart2
        have := mem_insert_key_eq (keysNodup_gfm fns) hkv hk2a
        rw [this]

/-- Witness for C2 amended: entry address `0x4010` on an empty scan
result; the synthetic entry stub is the unique `"entry"` function. -/
theorem entry_identification_amended_witness :
    ∃ fE, (identify_entry_point [] 16400).filter
        (fun f => f.function_identifier == entryName) = [fE] ∧
      fE.start = 16400 ∧ fE.function_identifier = entryName ∧
      ((∀ g ∈ ([] : List FunctionSignature), g.start ≠ 16400) →
        fE = ⟨entryName, 16400, 16400, 0⟩) :=
  entry_identification_amended [] 16400 (by decide) (by simp)

/-! ### Merge-operation sequences and the registry invariant (C3) -/

theorem registryInvariant_congr {hs : List (FunctionSignature × FunctionSource)}
    {m1 m2 : List (Nat × FunctionEntry)} {a : Nat}
    (h : lookupEntry m1 a = lookupEntry m2 a)
    (hi : RegistryInvariant hs m2 a) : RegistryInvariant hs m1 a := by
  unfold RegistryInvariant at hi ⊢
  rw [h]
  exact hi

/-- One `mergeOne` step preserves the registry invariant when the history
is extended by the contributed pair. -/
theorem registryInvariant_step {hs : List (FunctionSignature × FunctionSource)}
    {m : List (Nat × FunctionEntry)} {a : Nat} {c : FunctionSignature × FunctionSource}
    (h : RegistryInvariant hs m a) :
    RegistryInvariant (hs ++ [c]) (mergeOne m c.1 c.2) a := by
  by_cases hca : c.1.start = a
  · unfold RegistryInvariant at h ⊢
    have hlm := lookup_mergeOne_self m c.1 c.2
    rw [hca] at hlm
    have hfc : (hs ++ [c]).filter (fun x => x.1.start == a) =
        hs.filter (fun x => x.1.start == a) ++ [c] := by
      rw [List.filter_append]
      congr 1
      simp [hca]
    rcases hl : lookupEntry m a with _ | e
    · rw [hl] at h hlm
      rw [hlm, hfc, h]
      refine ⟨⟨c, by simp, rfl⟩, ?_, ?_⟩
      · intro x hx
        simp only [List.nil_append, List.mem_singleton] at hx
        rw [hx]
      · simp [List.find?]
    · rw [hl] at h hlm
      obtain ⟨hex, hub, hfirst⟩ := h
      have hlm2 : lookupEntry (mergeOne m c.1 c.2) a =
          some (if e.source.prio < c.2.prio then ⟨c.1, c.2⟩ else e) := hlm
      by_cases hp : e.source.prio < c.2.prio
      · rw [if_pos hp] at hlm2
        rw [hlm2, hfc]
        refine ⟨⟨c, List.mem_append_right _ (by simp), rfl⟩, ?_, ?_⟩
        · intro x hx
          rcases List.mem_append.mp hx with hx2 | hx2
          · exact Nat.le_of_lt (Nat.lt_of_le_of_lt (hub x hx2) hp)
          · simp only [List.mem_singleton] at hx2
            rw [hx2]
        · rw [List.find?_append]
          have hnone : (hs.filter (fun x => x.1.start == a)).find?
              (fun x => x.2.prio == c.2.prio) = none := by
            apply List.find?_eq_none.mpr
            intro x hx
            have hle := hub x hx
            have hneq : x.2.prio ≠ c.2.prio := by omega
            simp [hneq]
          rw [hnone]
          simp [List.find?]
      · rw [if_neg hp] at hlm2
        rw [hlm2, hfc]
        have hcle : c.2.prio ≤ e.source.prio := Nat.le_of_not_lt hp
        refine ⟨?_, ?_, ?_⟩
        · obtain ⟨c0, hc0, hc0p⟩ := hex
          exact ⟨c0, List.mem_append_left _ hc0, hc0p⟩
        · intro x hx
          rcases List.mem_append.mp hx with hx2 | hx2
          · exact hub x hx2
          · simp only [List.mem_singleton] at hx2
            rw [hx2]
            exact hcle
        · rw [List.find?_append]
          rcases hfind : (hs.filter (fun x => x.1.start == a)).find?
              (fun x => x.2.prio == e.source.prio) with _ | c0
          · rw [hfind] at hfirst
            simp at hfirst
          · rw [hfind] at hfirst
            rw [hfind]
            exact hfirst
  · unfold RegistryInvariant at h ⊢
    rw [lookup_mergeOne_ne hca]
    have hfc : (hs ++ [c]).filter (fun x => x.1.start == a) =
        hs.filter (fun x => x.1.start == a) := by
      rw [List.filter_append]
      have hc : [c].filter (fun x => x.1.start == a) = [] := by simp [hca]
      rw [hc, List.append_nil]
    rw [hfc]
    exact h

theorem registryInvariant_fold :
    ∀ (cs : List (FunctionSignature × FunctionSource))
      (hs : List (FunctionSignature × FunctionSource)) (m : List (Nat × FunctionEntry)),
      (∀ a, RegistryInvariant hs m a) →
      ∀ a, RegistryInvariant (hs ++ cs)
        (cs.foldl (fun m c => mergeOne m c.1 c.2) m) a := by
  intro cs
  induction cs with
  | nil =>
    intro hs m h a
    simpa using h a
  | cons c t ih =>
    intro hs m h a
    have h2 : ∀ a2, RegistryInvariant (hs ++ [c]) (mergeOne m c.1 c.2) a2 :=
      fun a2 => registryInvariant_step (h a2)
    have h3 := ih (hs ++ [c]) (mergeOne m c.1 c.2) h2 a
    rw [List.append_assoc] at h3
    simpa using h3

theorem mergeOne_congr {m1 m2 : List (Nat × FunctionEntry)} (h : EqMap m1 m2)
    (sig : FunctionSignature) (src : FunctionSource) :
    EqMap (mergeOne m1 sig src) (mergeOne m2 sig src) := by
  intro a
  by_cases ha : sig.start = a
  · subst ha
    rw [lookup_mergeOne_self, lookup_mergeOne_self, h sig.start]
  · rw [lookup_mergeOne_ne ha, lookup_mergeOne_ne ha, h a]

theorem mergeFold_congr {src : FunctionSource} :
    ∀ (new : List FunctionSignature) {m1 m2 : List (Nat × FunctionEntry)},
      EqMap m1 m2 → EqMap (mergeFold m1 new src) (mergeFold m2 new src) := by
  intro new
  induction new with
  | nil => intro m1 m2 h; exact h
  | cons f t ih =>
    intro m1 m2 h
    exact ih (mergeOne_congr h f src)

theorem sourceFaithful_gfm (fns : List FunctionSignature) :
    SourceFaithful (get_function_map fns) := by
  intro a e h
  have hmem : (a, e) ∈ fns.foldl gfmStep [] := by
    rw [← get_function_map]
    exact lookup_mem h
  rcases mem_gfm_fold fns [] a e hmem with hfalse | ⟨_, hsrc, _⟩
  · cases hfalse
  · exact hsrc

theorem sourceFaithful_mergeOne {m : List (Nat × FunctionEntry)}
    {sig : FunctionSignature} {src : FunctionSource}
    (h : SourceFaithful m) (hsig : inferSource sig = src) :
    SourceFaithful (mergeOne m sig src) := by
  intro a e hl
  by_cases ha : sig.start = a
  · subst ha
    rw [lookup_mergeOne_self] at hl
    rcases hm : lookupEntry m sig.start with _ | e0
    · rw [hm] at hl
      have he : e = ⟨sig, src⟩ := by
        have := Option.some.inj hl
        rw [← this]
      rw [he, ← hsig]
    · rw [hm] at hl
      have hl2 : some (if e0.source.prio < src.prio then (⟨sig, src⟩ : FunctionEntry) else e0)
          = some e := hl
      by_cases hp : e0.source.prio < src.prio
      · rw [if_pos hp] at hl2
        have he : e = ⟨sig, src⟩ := (Option.some.inj hl2).symm
        rw [he, ← hsig]
      · rw [if_neg hp] at hl2
        have he : e = e0 := (Option.some.inj hl2).symm
        rw [he]
        exact h sig.start e0 hm
  · rw [lookup_mergeOne_ne ha] at hl
    exact h a e hl

theorem sourceFaithful_mergeFold {src : FunctionSource} :
    ∀ (new : List FunctionSignature) (m : List (Nat × FunctionEntry)),
      SourceFaithful m → (∀ sig ∈ new, inferSource sig = src) →
      SourceFaithful (mergeFold m new src) := by
  intro new
  induction new with
  | nil => intro m h _; exact h
  | cons f t ih =>
    intro m h hall
    exact ih (mergeOne m f src)
      (sourceFaithful_mergeOne h (hall f (List.mem_cons_self f t)))
      (fun sig hsig => hall sig (List.mem_cons_of_mem f hsig))

/-- Rebuilding the registry from the stored-back list recovers the same
registry, pointwise, provided the stored sources were faithfully encoded
in the identifiers. -/
theorem eqMap_gfm_sortValues (K : List (Nat × FunctionEntry))
    (h1 : KeysNodup K) (h2 : KeyStart K) (hsf : SourceFaithful K) :
    EqMap (get_function_map (sortByStart (mapValues K))) K := by
  intro a
  have hd : StartsDistinct (sortByStart (mapValues K)) :=
    startsDistinct_of_strict (strictSorted_sortValues K h1 h2)
  rw [lookup_gfm hd a, findAt_sortValues K h1 h2 a]
  rcases hl : lookupEntry K a with _ | e
  · rfl
  · have hse := hsf a e hl
    show some ⟨e.signature, inferSource e.signature⟩ = some e
    rw [← hse]

/-- Refinement: under faithful naming, the registry the code rebuilds
after a sequence of merges agrees pointwise with the registry a persistent
map would hold. -/
theorem gfm_runMerges_eq :
    ∀ (ops : List (List FunctionSignature × FunctionSource))
      (st : List FunctionSignature) (M : List (Nat × FunctionEntry)),
      (∀ op ∈ ops, ∀ sig ∈ op.1, inferSource sig = op.2) →
      EqMap (get_function_map st) M →
      EqMap (get_function_map (ops.foldl (fun st op => add_functions st op.1 op.2) st))
        (ops.foldl (fun m op => mergeFold m op.1 op.2) M) := by
  intro ops
  induction ops with
  | nil => intro st M _ hEq; exact hEq
  | cons op rest ih =>
    intro st M hf hEq
    have hK1 : KeysNodup (mergeFold (get_function_map st) op.1 op.2) :=
      keysNodup_mergeFold op.1 (get_function_map st) (keysNodup_gfm st)
    have hK2 : KeyStart (mergeFold (get_function_map st) op.1 op.2) :=
      keyStart_mergeFold op.1 (get_function_map st) (keyStart_gfm st)
    have hKsf : SourceFaithful (mergeFold (get_function_map st) op.1 op.2) :=
      sourceFaithful_mergeFold op.1 (get_function_map st) (sourceFaithful_gfm st)
        (hf op (List.mem_cons_self op rest))
    have hb : EqMap (get_function_map (add_functions st op.1 op.2))
        (mergeFold (get_function_map st) op.1 op.2) :=
      eqMap_gfm_sortValues _ hK1 hK2 hKsf
    have ha : EqMap (mergeFold (get_function_map st) op.1 op.2)
        (mergeFold M op.1 op.2) :=
      mergeFold_congr op.1 hEq
    have hcomb : EqMap (get_function_map (add_functions st op.1 op.2))
        (mergeFold M op.1 op.2) := fun a => (hb a).trans (ha a)
    exact ih (add_functions st op.1 op.2) (mergeFold M op.1 op.2)
      (fun op2 h2 => hf op2 (List.mem_cons_of_mem op h2)) hcomb

/-- The nested spec-level fold equals the flat fold over all contributed
pairs. -/
theorem specFold_eq_pairs :
    ∀ (ops : List (List FunctionSignature × FunctionSource))
      (m0 : List (Nat × FunctionEntry)),
      ops.foldl (fun m op => mergeFold m op.1 op.2) m0 =
        (contribPairs ops).foldl (fun m c => mergeOne m c.1 c.2) m0 := by
  intro ops
  induction ops with
  | nil => intro m0; rfl
  | cons op rest ih =>
    intro m0
    show rest.foldl (fun m op => mergeFold m op.1 op.2) (mergeFold m0 op.1 op.2) = _
    rw [ih (mergeFold m0 op.1 op.2)]
    show _ = (op.1.map (fun f => (f, op.2)) ++ contribPairs rest).foldl
      (fun m c => mergeOne m c.1 c.2) m0
    rw [List.foldl_append, List.foldl_map]
    rfl

/-- C3 fails as stated: one merge contributes a `FUNC_0x10`-named
candidate at `SymTab` priority (the symbol scanner's fallback naming).
The registry the next operation sees re-infers the source from the
identifier, so the stored source is `EhFrame` (priority 0), not the
maximum priority ever contributed (`SymTab`, priority 3). -/
theorem registry_priority_invariant_counterexample :
    ¬ RegistryInvariant
      (contribPairs [([⟨funcHexName 16, 16, 20, 4⟩], FunctionSource.SymTab)])
      (get_function_map (runMerges [([⟨funcHexName 16, 16, 20, 4⟩], FunctionSource.SymTab)]))
      16 := by
  intro h
  have hex : ∃ c ∈ (contribPairs [([⟨funcHexName 16, 16, 20, 4⟩],
      FunctionSource.SymTab)]).filter (fun c => c.1.start == 16),
      c.2.prio = FunctionSource.EhFrame.prio := h.1
  revert hex
  decide

/-- C3 amended: the registry invariant (stored source is the maximum
priority ever contributed for the address, and the stored candidate is the
first one contributed at that priority) holds after every sequence of
merge operations, provided every merged candidate's identifier faithfully
encodes its source under the re-inference rule (`FUNC_`-prefixed only at
`EhFrame`, `"entry"` only at `Manual`, other names only at `SymTab`). -/
theorem registry_priority_invariant_amended
    (ops : List (List FunctionSignature × FunctionSource))
    (hf : ∀ op ∈ ops, ∀ sig ∈ op.1, inferSource sig = op.2) (a : Nat) :
    RegistryInvariant (contribPairs ops) (get_function_map (runMerges ops)) a := by
  have hbase : ∀ a2, RegistryInvariant [] ([] : List (Nat × FunctionEntry)) a2 := by
    intro a2
    unfold RegistryInvariant
    rfl
  have hinv := registryInvariant_fold (contribPairs ops) [] [] hbase a
  rw [List.nil_append] at hinv
  have heqm : EqMap (get_function_map (runMerges ops))
      (ops.foldl (fun m op => mergeFold m op.1 op.2) []) :=
    gfm_runMerges_eq ops [] [] hf (fun a2 => rfl)
  have heq2 : lookupEntry (get_function_map (runMerges ops)) a =
      lookupEntry ((contribPairs ops).foldl (fun m c => mergeOne m c.1 c.2) []) a := by
    rw [heqm a, specFold_eq_pairs]
  exact registryInvariant_congr heq2 hinv

/-- Witness for C3 amended at a concrete faithful merge sequence. -/
theorem registry_priority_invariant_amended_witness :
    RegistryInvariant
      (contribPairs [([⟨asciiBytes "main", 16, 20, 4⟩], FunctionSource.SymTab)])
      (get_function_map (runMerges [([⟨asciiBytes "main", 16, 20, 4⟩],
        FunctionSource.SymTab)])) 16 :=
  registry_priority_invariant_amended
    [([⟨asciiBytes "main", 16, 20, 4⟩], FunctionSource.SymTab)] (by decide) 16

/-- C7: with a well-sized symbol table, decoding succeeds and a record
appears in the output exactly when its section index is not `SHN_UNDEF`
and its value and size are nonzero. -/
theorem symtab_record_filtering (data : List Nat) (h : data.length % 24 = 0) :
    ∃ syms, from_section data = .ok syms ∧
      (∀ s ∈ syms, s.st_shndx ≠ 0 ∧ s.st_value ≠ 0 ∧ s.st_size ≠ 0) ∧
      (∀ i, i < data.length / 24 →
        (readSym data (i * 24)).st_shndx ≠ 0 →
        (readSym data (i * 24)).st_value ≠ 0 →
        (readSym data (i * 24)).st_size ≠ 0 →
        readSym data (i * 24) ∈ syms) := by
  refine ⟨(List.range (data.length / 24)).filterMap (fun i =>
    let s := readSym data (i * 24)
    if s.st_shndx = 0 ∨ s.st_value = 0 ∨ s.st_size = 0 then none else some s), ?_, ?_, ?_⟩
  · unfold from_section
    rw [if_neg (by omega)]
  · intro s hs
    rcases List.mem_filterMap.mp hs with ⟨i, _, hopt⟩
    have hopt2 : (if (readSym data (i * 24)).st_shndx = 0 ∨
        (readSym data (i * 24)).st_value = 0 ∨ (readSym data (i * 24)).st_size = 0
        then none else some (readSym data (i * 24))) = some s := hopt
    by_cases hbad : (readSym data (i * 24)).st_shndx = 0 ∨
        (readSym data (i * 24)).st_value = 0 ∨ (readSym data (i * 24)).st_size = 0
    · rw [if_pos hbad] at hopt2
      cases hopt2
    · rw [if_neg hbad] at hopt2
      have hse : readSym data (i * 24) = s := Option.some.inj hopt2
      rw [← hse]
      push_neg at hbad
      exact hbad
  · intro i hi h1 h2 h3
    apply List.mem_filterMap.mpr
    refine ⟨i, List.mem_range.mpr hi, ?_⟩
    show (if (readSym data (i * 24)).st_shndx = 0 ∨
        (readSym data (i * 24)).st_value = 0 ∨ (readSym data (i * 24)).st_size = 0
        then none else some (readSym data (i * 24))) = some (readSym data (i * 24))
    rw [if_neg (fun hor => hor.elim h1 (fun hor2 => hor2.elim h2 h3))]

/-- Witness for C7: one 24-byte record with section index 1, value 1,
size 1; it survives the filter. -/
theorem symtab_record_filtering_witness :
    ∃ syms, from_section
        [0, 0, 0, 0, 0, 0, 1, 0, 1, 0, 0, 0, 0, 0, 0, 0, 1, 0, 0, 0, 0, 0, 0, 0] = .ok syms ∧
      (∀ s ∈ syms, s.st_shndx ≠ 0 ∧ s.st_value ≠ 0 ∧ s.st_size ≠ 0) ∧
      (∀ i, i < ([0, 0, 0, 0, 0, 0, 1, 0, 1, 0, 0, 0, 0, 0, 0, 0, 1, 0, 0, 0, 0, 0, 0,
          0] : List Nat).length / 24 →
        (readSym [0, 0, 0, 0, 0, 0, 1, 0, 1, 0, 0, 0, 0, 0, 0, 0, 1, 0, 0, 0, 0, 0, 0, 0]
          (i * 24)).st_shndx ≠ 0 →
        (readSym [0, 0, 0, 0, 0, 0, 1, 0, 1, 0, 0, 0, 0, 0, 0, 0, 1, 0, 0, 0, 0, 0, 0, 0]
          (i * 24)).st_value ≠ 0 →
        (readSym [0, 0, 0, 0, 0, 0, 1, 0, 1, 0, 0, 0, 0, 0, 0, 0, 1, 0, 0, 0, 0, 0, 0, 0]
          (i * 24)).st_size ≠ 0 →
        readSym [0, 0, 0, 0, 0, 0, 1, 0, 1, 0, 0, 0, 0, 0, 0, 0, 1, 0, 0, 0, 0, 0, 0, 0]
          (i * 24) ∈ syms) :=
  symtab_record_filtering
    [0, 0, 0, 0, 0, 0, 1, 0, 1, 0, 0, 0, 0, 0, 0, 0, 1, 0, 0, 0, 0, 0, 0, 0] (by decide)

/-- C8: the symbol scanner fails (with the invalid-size error, the only
error it can produce) exactly when the byte length is not a multiple of
the 24-byte record size, and on failure the previously merged function
list is left unchanged. -/
theorem symtab_size_error_iff (fns : List FunctionSignature)
    (symtab_data strtab_data : List Nat) :
    ((∃ e, analyze_symtab fns symtab_data strtab_data = .error e) ↔
      symtab_data.length % 24 ≠ 0) ∧
    (symtab_data.length % 24 ≠ 0 →
      analyze_symtab_run fns symtab_data strtab_data = fns) := by
  constructor
  · constructor
    · rintro ⟨e, he⟩
      by_contra hmod
      unfold analyze_symtab from_section at he
      rw [if_neg (by omega)] at he
      cases he
    · intro hmod
      refine ⟨(), ?_⟩
      unfold analyze_symtab from_section
      rw [if_pos hmod]
  · intro hmod
    unfold analyze_symtab_run analyze_symtab from_section
    rw [if_pos hmod]

/-- Witness for C8: a 23-byte symbol table fails and leaves the merged
state untouched. -/
theorem symtab_size_error_iff_witness :
    analyze_symtab_run [⟨asciiBytes "main", 16, 20, 4⟩] (List.replicate 23 0) [] =
      [⟨asciiBytes "main", 16, 20, 4⟩] ∧
    (∃ e, analyze_symtab [⟨asciiBytes "main", 16, 20, 4⟩] (List.replicate 23 0) [] =
      .error e) := by
  have h := symtab_size_error_iff [⟨asciiBytes "main", 16, 20, 4⟩] (List.replicate 23 0) []
  exact ⟨h.2 (by decide), h.1.mpr (by decide)⟩

/-- C4 fails as stated: a record whose name offset (5) lies past the end
of an empty string table gets identifier `"<invalid_name>"`, not
`FUNC_<hex value>`. -/
theorem symtab_name_fallback_counterexample :
    (parse_symtab_64 [⟨5, 0, 0, 1, 16, 4⟩] []).map (fun f => f.function_identifier) =
      [invalidNameName] ∧ invalidNameName ≠ funcHexName 16 := by
  exact ⟨by decide, by decide⟩

/-- C4 amended: an out-of-bounds name offset yields `"<invalid_name>"`;
an in-bounds offset whose null-terminated string is empty yields
`FUNC_<hex value>`; otherwise the identifier is that string when it is
valid UTF-8 and `"<invalid_utf8>"` when it is not. -/
theorem symtab_name_resolution_amended (symbols : List Elf64Sym) (strtab_data : List Nat)
    (s : Elf64Sym) (hs : s ∈ symbols) :
    ∃ sig ∈ parse_symtab_64 symbols strtab_data,
      sig.start = s.st_value ∧ sig.size = s.st_size ∧
      (strtab_data.length ≤ s.st_name → sig.function_identifier = invalidNameName) ∧
      (s.st_name < strtab_data.length →
        (validUtf8 (readCString strtab_data s.st_name) = true →
          (readCString strtab_data s.st_name = [] →
            sig.function_identifier = funcHexName s.st_value) ∧
          (readCString strtab_data s.st_name ≠ [] →
            sig.function_identifier = readCString strtab_data s.st_name)) ∧
        (validUtf8 (readCString strtab_data s.st_name) = false →
          sig.function_identifier = invalidUtf8Name)) := by
  refine ⟨⟨resolveName strtab_data s.st_name s.st_value, s.st_value,
    (s.st_value + s.st_size) % 2 ^ 64, s.st_size⟩, ?_, rfl, rfl, ?_, ?_⟩
  · unfold parse_symtab_64
    exact List.mem_map.mpr ⟨s, hs, rfl⟩
  · intro hoob
    show resolveName strtab_data s.st_name s.st_value = invalidNameName
    unfold resolveName
    rw [if_neg (by omega)]
    unfold resolveNameAux
    rw [if_neg (by decide)]
  · intro hin
    constructor
    · intro hvalid
      constructor
      · intro hempty
        show resolveName strtab_data s.st_name s.st_value = funcHexName s.st_value
        unfold resolveName
        rw [if_pos hin, if_pos hvalid]
        unfold resolveNameAux
        rw [if_pos hempty]
      · intro hne
        show resolveName strtab_data s.st_name s.st_value = readCString strtab_data s.st_name
        unfold resolveName
        rw [if_pos hin, if_pos hvalid]
        unfold resolveNameAux
        rw [if_neg hne]
    · intro hinvalid
      show resolveName strtab_data s.st_name s.st_value = invalidUtf8Name
      unfold resolveName
      rw [if_pos hin, if_neg (by rw [hinvalid]; exact Bool.false_ne_true)]
      unfold resolveNameAux
      rw [if_neg (by decide)]

/-- Witness for C4 amended: name offset 0 into the string table `"hi\0"`
resolves to `"hi"`. -/
theorem symtab_name_resolution_amended_witness :
    ∃ sig ∈ parse_symtab_64 [⟨0, 0, 0, 1, 16, 4⟩] [104, 105, 0],
      sig.start = Elf64Sym.st_value ⟨0, 0, 0, 1, 16, 4⟩ ∧
      sig.size = Elf64Sym.st_size ⟨0, 0, 0, 1, 16, 4⟩ ∧
      (([104, 105, 0] : List Nat).length ≤ Elf64Sym.st_name ⟨0, 0, 0, 1, 16, 4⟩ →
        sig.function_identifier = invalidNameName) ∧
      (Elf64Sym.st_name ⟨0, 0, 0, 1, 16, 4⟩ < ([104, 105, 0] : List Nat).length →
        (validUtf8 (readCString [104, 105, 0] (Elf64Sym.st_name ⟨0, 0, 0, 1, 16, 4⟩)) = true →
          (readCString [104, 105, 0] (Elf64Sym.st_name ⟨0, 0, 0, 1, 16, 4⟩) = [] →
            sig.function_identifier = funcHexName (Elf64Sym.st_value ⟨0, 0, 0, 1, 16, 4⟩)) ∧
          (readCString [104, 105, 0] (Elf64Sym.st_name ⟨0, 0, 0, 1, 16, 4⟩) ≠ [] →
            sig.function_identifier =
              readCString [104, 105, 0] (Elf64Sym.st_name ⟨0, 0, 0, 1, 16, 4⟩))) ∧
        (validUtf8 (readCString [104, 105, 0] (Elf64Sym.st_name ⟨0, 0, 0, 1, 16, 4⟩)) = false →
          sig.function_identifier = invalidUtf8Name)) :=
  symtab_name_resolution_amended [⟨0, 0, 0, 1, 16, 4⟩] [104, 105, 0] ⟨0, 0, 0, 1, 16, 4⟩
    (List.mem_cons_self _ _)

end Kakure
